import Mathlib

/-!
Verification of the Resume Analyzer pipeline (src/app.py).

Shallow embedding of the pure core of the program:
  * `clean_text`      — the Text Normalizer (re.sub(r"\s+", " ", text).strip()),
  * `safe_json_parse` — the Response Parser with its brace-extraction fallback,
  * `analyze_with_gemini` — the Analysis Client, with the external LLM call
    modelled as an environment function from the built prompt to an outcome,
  * `extract_docx_text` — the DOCX extractor ("\n".join(p.text for p in doc.paragraphs)).

Python's stdlib `json.loads` is modelled by an executable recursive-descent
parser `json_loads` over an inductive `Json` type (numbers restricted to
integers, `\uXXXX` escapes unsupported — no claim depends on either).
-/

namespace ResumeAnalyzer

/-! ### Character model

Named characters, written via `Char.ofNat` for the ones that are awkward as
literals.  `isSpace` models the whitespace class used both by the regex
`\s` and by `str.strip()` (restricted to the ASCII whitespace characters;
the inputs of interest are ASCII text). -/

def spaceChar : Char := Char.ofNat 32
def tabChar : Char := Char.ofNat 9
def nlChar : Char := Char.ofNat 10
def crChar : Char := Char.ofNat 13
def vtChar : Char := Char.ofNat 11
def ffChar : Char := Char.ofNat 12
def lbrace : Char := Char.ofNat 123
def rbrace : Char := Char.ofNat 125
def lbracket : Char := Char.ofNat 91
def rbracket : Char := Char.ofNat 93
def dquote : Char := Char.ofNat 34
def backslashChar : Char := Char.ofNat 92
def commaChar : Char := Char.ofNat 44
def colonChar : Char := Char.ofNat 58
def minusChar : Char := Char.ofNat 45
def dotChar : Char := Char.ofNat 46
def expLower : Char := Char.ofNat 101
def expUpper : Char := Char.ofNat 69

def isSpace (c : Char) : Bool :=
  c = spaceChar || c = tabChar || c = nlChar || c = crChar || c = vtChar || c = ffChar

def nonspace (c : Char) : Bool := !(isSpace c)

/-! ### Text Normalizer (src/app.py, `clean_text`)

`re.sub(r"\s+", " ", text)` replaces every maximal whitespace run by a
single space; `collapseAux` implements it with a flag remembering whether
the previous character belonged to a run already rewritten.  `.strip()`
then removes leading and trailing whitespace (`pyStrip`). -/

def collapseAux : Bool → List Char → List Char
  | _, [] => []
  | prevSpace, c :: rest =>
    if isSpace c then
      if prevSpace then collapseAux true rest
      else spaceChar :: collapseAux true rest
    else c :: collapseAux false rest

def collapseWS (cs : List Char) : List Char := collapseAux false cs

def stripR (cs : List Char) : List Char := (cs.reverse.dropWhile isSpace).reverse

def pyStrip (cs : List Char) : List Char := stripR (cs.dropWhile isSpace)

def clean_text (text : String) : String :=
  String.mk (pyStrip (collapseWS text.data))

/-! Specification-side view of normalization: the whitespace-separated
words of the input, rejoined with single spaces. -/

theorem length_dropWhile_le (p : Char → Bool) (l : List Char) :
    (l.dropWhile p).length ≤ l.length := by
  induction l with
  | nil => simp
  | cons c rest ih =>
    by_cases h : p c
    · rw [List.dropWhile_cons_of_pos h]; exact Nat.le_succ_of_le ih
    · rw [List.dropWhile_cons_of_neg h]

def words : List Char → List (List Char)
  | [] => []
  | c :: rest =>
    if isSpace c then words rest
    else (c :: rest.takeWhile nonspace) :: words (rest.dropWhile nonspace)
termination_by cs => cs.length
decreasing_by
  · simp only [List.length_cons]; omega
  · simp only [List.length_cons]
    exact Nat.lt_succ_of_le (length_dropWhile_le nonspace rest)

def joinWords : List (List Char) → List Char
  | [] => []
  | [w] => w
  | w :: w2 :: ws => w ++ spaceChar :: joinWords (w2 :: ws)

/-! ### JSON data model and the model of `json.loads` -/

inductive Json where
  | null : Json
  | bool : Bool → Json
  | num : Int → Json
  | str : String → Json
  | arr : List Json → Json
  | obj : List (String × Json) → Json

/-- JSON structural whitespace (RFC 8259: space, tab, LF, CR). -/
def isJsonWs (c : Char) : Bool :=
  c = spaceChar || c = tabChar || c = nlChar || c = crChar

def skipWs : List Char → List Char
  | [] => []
  | c :: rest => if isJsonWs c then skipWs rest else c :: rest

/-- Translation of the two-character escape sequences of JSON strings
(`\uXXXX` is not modelled: it yields a parse failure). -/
def escChar (c : Char) : Option Char :=
  if c = dquote then some dquote
  else if c = backslashChar then some backslashChar
  else if c = Char.ofNat 47 then some (Char.ofNat 47)
  else if c = 'b' then some (Char.ofNat 8)
  else if c = 'f' then some ffChar
  else if c = 'n' then some nlChar
  else if c = 'r' then some crChar
  else if c = 't' then some tabChar
  else none

/-- Parse the body of a JSON string after the opening quote; returns the
decoded characters and the remainder after the closing quote. -/
def parseStringBody : List Char → Option (List Char × List Char)
  | [] => none
  | c :: rest =>
    if c = dquote then some ([], rest)
    else if c = backslashChar then
      match rest with
      | [] => none
      | e :: rest2 =>
        match escChar e with
        | some ec =>
          match parseStringBody rest2 with
          | some (body, rem) => some (ec :: body, rem)
          | none => none
        | none => none
    else if c.toNat < 32 then none
    else
      match parseStringBody rest with
      | some (body, rem) => some (c :: body, rem)
      | none => none

def digitsToNat (ds : List Char) : Nat :=
  ds.foldl (fun acc c => acc * 10 + (c.toNat - 48)) 0

/-- Parse a JSON number.  Numbers are modelled as integers: a fractional
part or exponent is rejected (no claim involves non-integer numbers). -/
def parseNumber (cs : List Char) : Option (Json × List Char) :=
  let (neg, cs1) :=
    match cs with
    | c :: rest => if c = minusChar then (true, rest) else (false, cs)
    | [] => (false, cs)
  let ds := cs1.takeWhile Char.isDigit
  let rest := cs1.dropWhile Char.isDigit
  if ds = [] then none
  else
    match rest with
    | c :: _ =>
      if c = dotChar || c = expLower || c = expUpper then none
      else some (Json.num (if neg then -(digitsToNat ds : Int) else (digitsToNat ds : Int)), rest)
    | [] => some (Json.num (if neg then -(digitsToNat ds : Int) else (digitsToNat ds : Int)), rest)

/-- Check that the literal `lit` heads `cs` and return the remainder. -/
def expectLit : List Char → List Char → Option (List Char)
  | [], cs => some cs
  | _, [] => none
  | l :: ls, c :: cs => if c = l then expectLit ls cs else none

mutual

/-- Recursive-descent JSON value parser, fuel-indexed (structural on the
fuel so that concrete inputs evaluate by kernel reduction). -/
def parseV : Nat → List Char → Option (Json × List Char)
  | 0, _ => none
  | fuel + 1, cs =>
    match skipWs cs with
    | [] => none
    | c :: rest =>
      if c = dquote then
        match parseStringBody rest with
        | some (body, rem) => some (Json.str (String.mk body), rem)
        | none => none
      else if c = lbracket then parseArrStart fuel rest
      else if c = lbrace then parseObjStart fuel rest
      else if c = 't' then
        match expectLit ['r', 'u', 'e'] rest with
        | some rem => some (Json.bool true, rem)
        | none => none
      else if c = 'f' then
        match expectLit ['a', 'l', 's', 'e'] rest with
        | some rem => some (Json.bool false, rem)
        | none => none
      else if c = 'n' then
        match expectLit ['u', 'l', 'l'] rest with
        | some rem => some (Json.null, rem)
        | none => none
      else if c = minusChar || c.isDigit then parseNumber (c :: rest)
      else none

/-- Parse an array after the opening bracket. -/
def parseArrStart : Nat → List Char → Option (Json × List Char)
  | 0, _ => none
  | fuel + 1, cs =>
    match skipWs cs with
    | [] => none
    | c :: rest =>
      if c = rbracket then some (Json.arr [], rest)
      else
        match parseV fuel (c :: rest) with
        | some (v, rem) => parseArrTail fuel [v] rem
        | none => none

/-- Parse the continuation of an array: `, value`* `]`, accumulator reversed. -/
def parseArrTail : Nat → List Json → List Char → Option (Json × List Char)
  | 0, _, _ => none
  | fuel + 1, acc, cs =>
    match skipWs cs with
    | [] => none
    | c :: rest =>
      if c = rbracket then some (Json.arr acc.reverse, rest)
      else if c = commaChar then
        match parseV fuel rest with
        | some (v, rem) => parseArrTail fuel (v :: acc) rem
        | none => none
      else none

/-- Parse an object after the opening brace. -/
def parseObjStart : Nat → List Char → Option (Json × List Char)
  | 0, _ => none
  | fuel + 1, cs =>
    match skipWs cs with
    | [] => none
    | c :: rest =>
      if c = rbrace then some (Json.obj [], rest)
      else if c = dquote then
        match parseMember fuel rest with
        | some (kv, rem) => parseObjTail fuel [kv] rem
        | none => none
      else none

/-- Parse one `key : value` member, the key's opening quote already consumed. -/
def parseMember : Nat → List Char → Option ((String × Json) × List Char)
  | 0, _ => none
  | fuel + 1, cs =>
    match parseStringBody cs with
    | some (key, rem1) =>
      match skipWs rem1 with
      | c :: rem2 =>
        if c = colonChar then
          match parseV fuel rem2 with
          | some (v, rem3) => some ((String.mk key, v), rem3)
          | none => none
        else none
      | [] => none
    | none => none

/-- Parse the continuation of an object: `, "key": value`* `}`. -/
def parseObjTail : Nat → List (String × Json) → List Char → Option (Json × List Char)
  | 0, _, _ => none
  | fuel + 1, acc, cs =>
    match skipWs cs with
    | [] => none
    | c :: rest =>
      if c = rbrace then some (Json.obj acc.reverse, rest)
      else if c = commaChar then
        match skipWs rest with
        | d :: rest2 =>
          if d = dquote then
            match parseMember fuel rest2 with
            | some (kv, rem) => parseObjTail fuel (kv :: acc) rem
            | none => none
          else none
        | [] => none
      else none

end

/-- Model of Python's `json.loads` on a character list: parse one value,
then require only whitespace to remain.  `none` models a raised
`json.JSONDecodeError`. -/
def json_loads_chars (cs : List Char) : Option Json :=
  match parseV (2 * cs.length + 8) cs with
  | some (v, rem) => if skipWs rem = [] then some v else none
  | none => none

def json_loads (s : String) : Option Json := json_loads_chars s.data

/-! ### Python `str.find` / `str.rfind` / slicing -/

def findIdxA (p : Char → Bool) : List Char → Option Nat
  | [] => none
  | c :: rest => if p c then some 0 else (findIdxA p rest).map (· + 1)

/-- `text.find(c)`: index of the first occurrence, `-1` when absent. -/
def strFind (cs : List Char) (c : Char) : Int :=
  match findIdxA (fun d => d = c) cs with
  | some i => (i : Int)
  | none => -1

/-- `text.rfind(c)`: index of the last occurrence, `-1` when absent. -/
def strRfind (cs : List Char) (c : Char) : Int :=
  match findIdxA (fun d => d = c) cs.reverse with
  | some j => (cs.length : Int) - 1 - j
  | none => -1

/-- `text[a:b]` for the non-negative bounds arising in `safe_json_parse`
(Python clamps an out-of-range upper bound). -/
def pySlice (cs : List Char) (a b : Int) : List Char :=
  (cs.take b.toNat).drop a.toNat

/-! ### Response Parser (src/app.py, `safe_json_parse`) -/

/-- The second `try` block of `safe_json_parse` (lines 70–76): locate the
first `\x7b` and last `\x7d`, and parse the slice between them; a
`JSONDecodeError` is caught, yielding `none`. -/
def brace_fallback (t : String) : Option Json :=
  let start : Int := strFind t.data lbrace
  let stop : Int := strRfind t.data rbrace + 1
  if start ≠ -1 ∧ stop ≠ -1 then json_loads_chars (pySlice t.data start stop)
  else none

/-- `safe_json_parse(text)`: `None` for an absent or empty input, else the
direct parse, else the brace-extraction fallback, else `None`. -/
def safe_json_parse (text : Option String) : Option Json :=
  match text with
  | none => none
  | some t =>
    if t = "" then none
    else
      match json_loads t with
      | some v => some v
      | none =>
        match brace_fallback t with
        | some v => some v
        | none => none

/-- Specification-side brace extraction: the substring from the index of
the first `\x7b` through the index of the last `\x7d` (inclusive), when
both characters occur. -/
def specBraceSubstring (cs : List Char) : Option (List Char) :=
  match findIdxA (fun c => c = lbrace) cs, findIdxA (fun c => c = rbrace) cs.reverse with
  | some i, some j => some ((cs.take (cs.length - j)).drop i)
  | _, _ => none

/-! ### Analysis Client (src/app.py, `analyze_with_gemini`)

The external LLM call is modelled as an environment `llm` mapping the
built prompt to an outcome: either a reply text (`response.text`, an
optional string) or a raised error with its description `str(e)`. -/

inductive LLMOutcome where
  | ok : Option String → LLMOutcome
  | err : String → LLMOutcome

/-- The f-string prompt of `analyze_with_gemini` (lines 93–115). -/
def build_prompt (resume_text jd_text : String) : String :=
  "\nYou are an ATS resume analyzer.\n\nSTRICT RULES:\n- Respond with ONLY valid JSON\n- No markdown\n- No explanations\n\nJSON FORMAT:\n\x7b\n  \"match_score\": number,\n  \"resume_skills\": [],\n  \"job_required_skills\": [],\n  \"missing_skills\": [],\n  \"suggestions\": \"\"\n\x7d\n\nRESUME:\n\"\"\"" ++ resume_text ++ "\"\"\"\n\nJOB DESCRIPTION:\n\"\"\"" ++ jd_text ++ "\"\"\"\n"

/-- The default record returned on the failure paths, as the dict literal
of the source (both literals share this shape, differing in `suggestions`). -/
def defaultResult (sugg : String) : Json :=
  Json.obj [("match_score", Json.num 0),
            ("resume_skills", Json.arr []),
            ("job_required_skills", Json.arr []),
            ("missing_skills", Json.arr []),
            ("suggestions", Json.str sugg)]

/-- `analyze_with_gemini(resume_text, jd_text)` with the module-global
`client` and the LLM environment made explicit.  On the success path the
parsed reply is returned as-is; every failure is absorbed into a default
record whose `suggestions` carries `f"Analysis failed: \x7be\x7d"`. -/
def analyze_with_gemini (client : Option Unit) (llm : String → LLMOutcome)
    (resume_text jd_text : String) : Json :=
  match client with
  | none => defaultResult "Gemini client not initialized."
  | some _ =>
    match llm (build_prompt resume_text jd_text) with
    | LLMOutcome.err e => defaultResult ("Analysis failed: " ++ e)
    | LLMOutcome.ok txt =>
      match safe_json_parse txt with
      | some parsed => parsed
      | none => defaultResult ("Analysis failed: " ++ "Invalid JSON returned by Gemini")

/-- Whether a JSON value is an object binding the key `k`. -/
def Json.hasKey : Json → String → Bool
  | Json.obj fields, k => fields.any (fun p => p.1 = k)
  | _, _ => false

def hasAllFive (j : Json) : Bool :=
  j.hasKey "match_score" && j.hasKey "resume_skills" && j.hasKey "job_required_skills"
    && j.hasKey "missing_skills" && j.hasKey "suggestions"

/-! ### DOCX extraction (src/app.py, `extract_docx_text`) -/

structure Paragraph where
  text : String

structure DocxDocument where
  paragraphs : List Paragraph

/-- `"\n".join(p.text for p in doc.paragraphs)`. -/
def extract_docx_text (doc : DocxDocument) : String :=
  String.intercalate "\n" (doc.paragraphs.map Paragraph.text)

/-- Specification-side join: the paragraph texts in order, a single
newline between consecutive ones. -/
def joinLines : List String → String
  | [] => ""
  | [t] => t
  | t :: t2 :: ts => t ++ "\n" ++ joinLines (t2 :: ts)

/-! ### Test vectors of spec section 8 -/

/-- The prose-wrapped LLM reply of section 8 (brace-extraction fallback case). -/
def exampleReply : String :=
  "Here you go:\n\x7b\"match_score\": 50, \"resume_skills\": [\"x\"], \"job_required_skills\": [\"x\",\"y\"], \"missing_skills\": [\"y\"], \"suggestions\": \"improve y\"\x7d\nThanks!"

/-- The substring of `exampleReply` from its first opening brace through its
last closing brace. -/
def exampleReplyCore : String :=
  "\x7b\"match_score\": 50, \"resume_skills\": [\"x\"], \"job_required_skills\": [\"x\",\"y\"], \"missing_skills\": [\"y\"], \"suggestions\": \"improve y\"\x7d"

/-- The structured value embedded in `exampleReply`. -/
def exampleObj : Json :=
  Json.obj [("match_score", Json.num 50),
            ("resume_skills", Json.arr [Json.str "x"]),
            ("job_required_skills", Json.arr [Json.str "x", Json.str "y"]),
            ("missing_skills", Json.arr [Json.str "y"]),
            ("suggestions", Json.str "improve y")]

/-- The all-JSON LLM reply of section 8 (direct-parse case). -/
def exampleFullJson : String :=
  "\x7b\"match_score\": 80, \"resume_skills\": [], \"job_required_skills\": [], \"missing_skills\": [], \"suggestions\": \"ok\"\x7d"

/-- The structured value of `exampleFullJson`. -/
def exampleFullObj : Json :=
  Json.obj [("match_score", Json.num 80),
            ("resume_skills", Json.arr []),
            ("job_required_skills", Json.arr []),
            ("missing_skills", Json.arr []),
            ("suggestions", Json.str "ok")]

end ResumeAnalyzer

namespace ResumeAnalyzer

/-! ### Lemmas about the Text Normalizer -/

theorem isSpace_spaceChar : isSpace spaceChar = true := rfl

theorem nonspace_spaceChar : nonspace spaceChar = false := rfl

theorem collapseAux_true_eq (xs : List Char) :
    collapseAux true xs = collapseAux false (xs.dropWhile isSpace) := by
  induction xs with
  | nil => rfl
  | cons c rest ih =>
    by_cases h : isSpace c
    · rw [List.dropWhile_cons_of_pos h]
      simp only [collapseAux, h, if_true, ih]
    · rw [List.dropWhile_cons_of_neg h]
      simp only [collapseAux, h, Bool.false_eq_true, if_false]

theorem collapseWS_nil : collapseWS [] = [] := rfl

theorem collapseWS_cons_space {c : Char} (rest : List Char) (h : isSpace c = true) :
    collapseWS (c :: rest) = spaceChar :: collapseWS (rest.dropWhile isSpace) := by
  simp only [collapseWS, collapseAux, h, if_true, Bool.false_eq_true, if_false,
    collapseAux_true_eq]

theorem collapseWS_cons_nonspace {c : Char} (rest : List Char) (h : isSpace c = false) :
    collapseWS (c :: rest) = c :: collapseWS rest := by
  simp only [collapseWS, collapseAux, h, Bool.false_eq_true, if_false]

theorem collapseWS_append_nonspace {w : List Char} (xs : List Char)
    (hw : ∀ c ∈ w, isSpace c = false) :
    collapseWS (w ++ xs) = w ++ collapseWS xs := by
  induction w with
  | nil => simp
  | cons c rest ih =>
    have hc : isSpace c = false := hw c (List.mem_cons_self c rest)
    rw [List.cons_append, collapseWS_cons_nonspace _ hc,
      ih (fun d hd => hw d (List.mem_cons_of_mem c hd)), List.cons_append]

theorem dropWhile_cons_false {p : Char → Bool} {l : List Char} {d : Char} {t : List Char}
    (h : l.dropWhile p = d :: t) : p d = false := by
  induction l with
  | nil => simp at h
  | cons a t2 ih =>
    by_cases hp : p a
    · rw [List.dropWhile_cons_of_pos hp] at h; exact ih h
    · rw [List.dropWhile_cons_of_neg hp] at h
      injection h with h1 h2
      subst h1
      simpa using hp

theorem collapseWS_dropWhile (cs : List Char) :
    collapseWS (cs.dropWhile isSpace) = (collapseWS cs).dropWhile isSpace := by
  match cs with
  | [] => rfl
  | c :: rest =>
    by_cases h : isSpace c
    · rw [List.dropWhile_cons_of_pos h, collapseWS_cons_space rest h,
        List.dropWhile_cons_of_pos isSpace_spaceChar]
      cases hu : rest.dropWhile isSpace with
      | nil => rfl
      | cons d utail =>
        have hd : isSpace d = false := dropWhile_cons_false hu
        rw [collapseWS_cons_nonspace _ hd, List.dropWhile_cons_of_neg (by simp [hd])]
    · rw [List.dropWhile_cons_of_neg h, collapseWS_cons_nonspace _ (by simpa using h),
        List.dropWhile_cons_of_neg (by simpa using h)]

theorem stripR_nil : stripR [] = [] := rfl

theorem stripR_of_all_nonspace {w : List Char} (hw : ∀ c ∈ w, isSpace c = false) :
    stripR w = w := by
  unfold stripR
  have hrw : w.reverse.dropWhile isSpace = w.reverse := by
    cases hrev : w.reverse with
    | nil => rfl
    | cons d t =>
      have hd : d ∈ w := by
        rw [← List.mem_reverse, hrev]; exact List.mem_cons_self d t
      rw [List.dropWhile_cons_of_neg (by simp [hw d hd])]
  rw [hrw, List.reverse_reverse]

theorem stripR_append_all_space {xs ys : List Char} (hy : ∀ c ∈ ys, isSpace c = true) :
    stripR (xs ++ ys) = stripR xs := by
  have hcond : (ys.reverse.dropWhile isSpace).isEmpty = true := by
    rw [List.isEmpty_iff, List.dropWhile_eq_nil_iff]
    intro x hx
    exact hy x (List.mem_reverse.mp hx)
  unfold stripR
  rw [List.reverse_append, List.dropWhile_append, if_pos hcond]

theorem stripR_append_of_ne_nil {xs ys : List Char} (hy : stripR ys ≠ []) :
    stripR (xs ++ ys) = xs ++ stripR ys := by
  have h1 : ys.reverse.dropWhile isSpace ≠ [] := by
    intro h
    exact hy (by unfold stripR; rw [h]; rfl)
  have hcond : ¬((ys.reverse.dropWhile isSpace).isEmpty = true) := by
    rw [List.isEmpty_iff]; exact h1
  unfold stripR
  rw [List.reverse_append, List.dropWhile_append, if_neg hcond, List.reverse_append,
    List.reverse_reverse]

theorem stripR_cons_nonspace_ne_nil {d : Char} (tail : List Char) (hd : isSpace d = false) :
    stripR (d :: tail) ≠ [] := by
  unfold stripR
  rw [show (d :: tail).reverse = tail.reverse ++ [d] by simp, List.dropWhile_append]
  by_cases h : (tail.reverse.dropWhile isSpace).isEmpty
  · rw [if_pos h, List.dropWhile_cons_of_neg (by simp [hd])]
    simp
  · rw [if_neg h]
    simp only [ne_eq, List.reverse_eq_nil_iff, List.append_eq_nil]
    intro hcon
    exact absurd hcon.2 (List.cons_ne_nil d [])

/-! ### Lemmas about `words` and `joinWords` -/

theorem words_nil : words [] = [] := by simp [words]

theorem words_cons_space {c : Char} (rest : List Char) (h : isSpace c = true) :
    words (c :: rest) = words rest := by
  rw [words]
  simp [h]

theorem words_cons_nonspace {c : Char} (rest : List Char) (h : isSpace c = false) :
    words (c :: rest) = (c :: rest.takeWhile nonspace) :: words (rest.dropWhile nonspace) := by
  rw [words]
  simp [h]

theorem words_dropWhile_space (cs : List Char) :
    words (cs.dropWhile isSpace) = words cs := by
  induction cs with
  | nil => rfl
  | cons c rest ih =>
    by_cases h : isSpace c
    · rw [List.dropWhile_cons_of_pos h, ih, words_cons_space rest h]
    · rw [List.dropWhile_cons_of_neg h]

theorem nonspace_of_isSpace_false {c : Char} (h : isSpace c = false) : nonspace c = true := by
  simp [nonspace, h]

theorem isSpace_false_of_nonspace {c : Char} (h : nonspace c = true) : isSpace c = false := by
  simpa [nonspace] using h

theorem words_of_word {w : List Char} (hne : w ≠ []) (hw : ∀ c ∈ w, isSpace c = false) :
    words w = [w] := by
  cases w with
  | nil => exact absurd rfl hne
  | cons c wtail =>
    have hc : isSpace c = false := hw c (List.mem_cons_self c wtail)
    have hall : ∀ d ∈ wtail, nonspace d = true := fun d hd =>
      nonspace_of_isSpace_false (hw d (List.mem_cons_of_mem c hd))
    rw [words_cons_nonspace wtail hc, List.takeWhile_eq_self_iff.mpr hall,
      List.dropWhile_eq_nil_iff.mpr hall, words_nil]

theorem words_append_word {w : List Char} (X : List Char) (hne : w ≠ [])
    (hw : ∀ c ∈ w, isSpace c = false) :
    words (w ++ spaceChar :: X) = w :: words X := by
  cases w with
  | nil => exact absurd rfl hne
  | cons c wtail =>
    have hc : isSpace c = false := hw c (List.mem_cons_self c wtail)
    have hall : ∀ d ∈ wtail, nonspace d = true := fun d hd =>
      nonspace_of_isSpace_false (hw d (List.mem_cons_of_mem c hd))
    have hdrop : (wtail ++ spaceChar :: X).dropWhile nonspace = spaceChar :: X := by
      rw [List.dropWhile_append,
        if_pos (by rw [List.isEmpty_iff]; exact List.dropWhile_eq_nil_iff.mpr hall),
        List.dropWhile_cons_of_neg (by simp [nonspace_spaceChar])]
    rw [List.cons_append, words_cons_nonspace _ hc, List.takeWhile_append_of_pos hall,
      List.takeWhile_cons_of_neg (by simp [nonspace_spaceChar]), hdrop,
      words_cons_space X isSpace_spaceChar, List.append_nil]

theorem words_of_all_space {cs : List Char} (h : ∀ c ∈ cs, isSpace c = true) :
    words cs = [] := by
  induction cs with
  | nil => exact words_nil
  | cons c rest ih =>
    rw [words_cons_space rest (h c (List.mem_cons_self c rest))]
    exact ih (fun d hd => h d (List.mem_cons_of_mem c hd))

theorem words_good (cs : List Char) :
    ∀ w ∈ words cs, w ≠ [] ∧ ∀ c ∈ w, isSpace c = false := by
  have H : ∀ n (cs : List Char), cs.length ≤ n →
      ∀ w ∈ words cs, w ≠ [] ∧ ∀ c ∈ w, isSpace c = false := by
    intro n
    induction n with
    | zero =>
      intro cs h0 w hw
      have : cs = [] := List.length_eq_zero.mp (Nat.le_zero.mp h0)
      subst this
      rw [words_nil] at hw
      exact absurd hw (List.not_mem_nil w)
    | succ n ih =>
      intro cs hlen w hw
      cases cs with
      | nil =>
        rw [words_nil] at hw
        exact absurd hw (List.not_mem_nil w)
      | cons c rest =>
        simp only [List.length_cons] at hlen
        by_cases h : isSpace c
        · rw [words_cons_space rest h] at hw
          exact ih rest (by omega) w hw
        · rw [words_cons_nonspace rest (by simpa using h)] at hw
          rcases List.mem_cons.mp hw with rfl | hw2
          · refine ⟨List.cons_ne_nil _ _, ?_⟩
            intro d hd
            rcases List.mem_cons.mp hd with rfl | hd2
            · simpa using h
            · exact isSpace_false_of_nonspace (List.mem_takeWhile_imp hd2)
          · exact ih (rest.dropWhile nonspace)
              (le_trans (length_dropWhile_le nonspace rest) (by omega)) w hw2
  exact H cs.length cs le_rfl

theorem joinWords_nil : joinWords [] = [] := rfl

theorem joinWords_single (w : List Char) : joinWords [w] = w := rfl

theorem joinWords_cons_of_ne (w : List Char) {ws : List (List Char)} (h : ws ≠ []) :
    joinWords (w :: ws) = w ++ spaceChar :: joinWords ws := by
  cases ws with
  | nil => exact absurd rfl h
  | cons w2 ws3 => rfl

/-- Normalization agrees with word splitting: stripping the collapsed form
of a string with no leading whitespace yields its words joined by single
spaces. -/
theorem stripR_collapseWS_eq_joinWords (cs : List Char) (hcs : cs.dropWhile isSpace = cs) :
    stripR (collapseWS cs) = joinWords (words cs) := by
  have H : ∀ n (cs : List Char), cs.length ≤ n → cs.dropWhile isSpace = cs →
      stripR (collapseWS cs) = joinWords (words cs) := by
    intro n
    induction n with
    | zero =>
      intro cs h0 _
      have : cs = [] := List.length_eq_zero.mp (Nat.le_zero.mp h0)
      subst this
      rw [collapseWS_nil, stripR_nil, words_nil, joinWords_nil]
    | succ n ih =>
      intro cs hlen hdrop
      cases cs with
      | nil => rw [collapseWS_nil, stripR_nil, words_nil, joinWords_nil]
      | cons c rest =>
        simp only [List.length_cons] at hlen
        have hc : isSpace c = false := by
          by_cases h : isSpace c
          · rw [List.dropWhile_cons_of_pos h] at hdrop
            have h1 := congrArg List.length hdrop
            have h2 := length_dropWhile_le isSpace rest
            simp only [List.length_cons] at h1
            omega
          · simpa using h
        have hw_nonspace : ∀ d ∈ c :: rest.takeWhile nonspace, isSpace d = false := by
          intro d hd
          rcases List.mem_cons.mp hd with rfl | hd2
          · exact hc
          · exact isSpace_false_of_nonspace (List.mem_takeWhile_imp hd2)
        have hsplit : c :: rest = (c :: rest.takeWhile nonspace) ++ rest.dropWhile nonspace := by
          rw [List.cons_append, List.takeWhile_append_dropWhile]
        rw [words_cons_nonspace rest hc, hsplit, collapseWS_append_nonspace _ hw_nonspace]
        cases hr : rest.dropWhile nonspace with
        | nil =>
          rw [collapseWS_nil, List.append_nil, stripR_of_all_nonspace hw_nonspace,
            words_nil, joinWords_single]
        | cons s tail =>
          have hs : isSpace s = true := by
            have := dropWhile_cons_false hr
            simpa [nonspace] using this
          have htail : tail.length + 1 ≤ rest.length := by
            have := congrArg List.length hr
            have h2 := length_dropWhile_le nonspace rest
            simp only [List.length_cons] at this
            omega
          rw [collapseWS_cons_space tail hs, words_cons_space tail hs,
            ← words_dropWhile_space tail]
          have hsp_all : ∀ d ∈ [spaceChar], isSpace d = true := by
            intro d hd
            rw [List.mem_singleton.mp hd]
            exact isSpace_spaceChar
          cases hu : tail.dropWhile isSpace with
          | nil =>
            rw [collapseWS_nil, words_nil, stripR_append_all_space hsp_all,
              stripR_of_all_nonspace hw_nonspace, joinWords_single]
          | cons d utail =>
            have hd : isSpace d = false := dropWhile_cons_false hu
            have hulen : (d :: utail).length ≤ n := by
              have := congrArg List.length hu
              have h2 := length_dropWhile_le isSpace tail
              simp only [List.length_cons] at this ⊢
              omega
            have hu_idem : (d :: utail).dropWhile isSpace = d :: utail :=
              List.dropWhile_cons_of_neg (by simp [hd])
            have hih := ih (d :: utail) hulen hu_idem
            have hne2 : stripR (collapseWS (d :: utail)) ≠ [] := by
              rw [collapseWS_cons_nonspace _ hd]
              exact stripR_cons_nonspace_ne_nil _ hd
            have hwords_ne : words (d :: utail) ≠ [] := by
              rw [words_cons_nonspace utail hd]
              exact List.cons_ne_nil _ _
            rw [show (c :: rest.takeWhile nonspace) ++ spaceChar :: collapseWS (d :: utail)
                = ((c :: rest.takeWhile nonspace) ++ [spaceChar]) ++ collapseWS (d :: utail) by
                simp,
              stripR_append_of_ne_nil hne2, hih,
              joinWords_cons_of_ne _ hwords_ne]
            simp
  exact H cs.length cs le_rfl hcs

/-- The Text Normalizer, specification view: the whitespace-separated words
of the input joined with single spaces. -/
theorem clean_text_eq_joinWords (s : String) :
    clean_text s = String.mk (joinWords (words s.data)) := by
  unfold clean_text pyStrip
  rw [← collapseWS_dropWhile,
    stripR_collapseWS_eq_joinWords _ (List.dropWhile_idempotent _ _),
    words_dropWhile_space]

theorem words_joinWords {ws : List (List Char)}
    (h : ∀ w ∈ ws, w ≠ [] ∧ ∀ c ∈ w, isSpace c = false) :
    words (joinWords ws) = ws := by
  induction ws with
  | nil => exact words_nil
  | cons w ws2 ih =>
    cases ws2 with
    | nil =>
      rw [joinWords_single]
      exact words_of_word (h w (List.mem_cons_self w [])).1 (h w (List.mem_cons_self w [])).2
    | cons w2 ws3 =>
      rw [joinWords_cons_of_ne w (List.cons_ne_nil w2 ws3),
        words_append_word _ (h w (List.mem_cons_self w _)).1 (h w (List.mem_cons_self w _)).2,
        ih (fun v hv => h v (List.mem_cons_of_mem w hv))]

/-! ### Lemmas about the Response Parser -/

theorem json_loads_empty : json_loads "" = none := rfl

theorem json_loads_chars_nil : json_loads_chars [] = none := rfl

theorem string_ne_empty_of_data_ne {s : String} (h : s.data ≠ []) : s ≠ "" := by
  intro heq
  exact h (by rw [heq])

theorem findIdxA_eq_none_iff (p : Char → Bool) (l : List Char) :
    findIdxA p l = none ↔ ∀ c ∈ l, p c = false := by
  induction l with
  | nil => simp [findIdxA]
  | cons c rest ih =>
    by_cases h : p c
    · simp only [findIdxA, h, if_true]
      constructor
      · intro hcon; exact Option.noConfusion hcon
      · intro hall
        have := hall c (List.mem_cons_self c rest)
        rw [h] at this
        exact Bool.noConfusion this
    · simp only [findIdxA, h, Bool.false_eq_true, if_false]
      constructor
      · intro hnone d hd
        rcases List.mem_cons.mp hd with rfl | hd2
        · simpa using h
        · refine ih.mp ?_ d hd2
          cases hfi : findIdxA p rest with
          | none => rfl
          | some k => rw [hfi] at hnone; simp at hnone
      · intro hall
        rw [ih.mpr (fun d hd => hall d (List.mem_cons_of_mem c hd))]
        rfl

theorem findIdxA_lt_length {p : Char → Bool} {l : List Char} {i : Nat}
    (h : findIdxA p l = some i) : i < l.length := by
  induction l generalizing i with
  | nil => simp [findIdxA] at h
  | cons c rest ih =>
    by_cases hp : p c
    · simp only [findIdxA, hp, if_true] at h
      injection h with h1
      subst h1
      simp
    · simp only [findIdxA, hp, Bool.false_eq_true, if_false] at h
      cases hfi : findIdxA p rest with
      | none => rw [hfi] at h; simp at h
      | some j =>
        rw [hfi] at h
        simp only [Option.map] at h
        injection h with h1
        have := ih hfi
        simp only [List.length_cons]
        omega

/-- The Int-indexed find/rfind slice of `brace_fallback` computes exactly
the specification-level first-to-last-brace substring. -/
theorem brace_fallback_eq_spec {t : String} {sub : List Char}
    (hsub : specBraceSubstring t.data = some sub) :
    brace_fallback t = json_loads_chars sub := by
  unfold specBraceSubstring at hsub
  cases hfi : findIdxA (fun c => c = lbrace) t.data with
  | none => rw [hfi] at hsub; simp at hsub
  | some i =>
    cases hfj : findIdxA (fun c => c = rbrace) t.data.reverse with
    | none => rw [hfi, hfj] at hsub; simp at hsub
    | some j =>
      rw [hfi, hfj] at hsub
      injection hsub with hsub1
      have hj : j < t.data.length := by
        have := findIdxA_lt_length hfj
        simpa using this
      have hFind : strFind t.data lbrace = (i : Int) := by
        unfold strFind; rw [hfi]
      have hRfind : strRfind t.data rbrace = (t.data.length : Int) - 1 - (j : Int) := by
        unfold strRfind; rw [hfj]
      unfold brace_fallback
      rw [hFind, hRfind, if_pos ⟨by omega, by omega⟩]
      unfold pySlice
      have h1 : ((t.data.length : Int) - 1 - (j : Int) + 1).toNat = t.data.length - j := by
        omega
      have h2 : ((i : Int)).toNat = i := by omega
      rw [h1, h2, hsub1]

theorem specBraceSubstring_data_ne {t : String} {sub : List Char}
    (hsub : specBraceSubstring t.data = some sub) : t.data ≠ [] := by
  intro h
  rw [h] at hsub
  simp [specBraceSubstring, findIdxA] at hsub

/-- When the text has an opening brace but no closing brace, the slice
`text[start:0]` is empty, whose parse fails: the fallback yields `none`. -/
theorem brace_fallback_no_close {s : String} (h1 : lbrace ∈ s.data)
    (h2 : rbrace ∉ s.data) : brace_fallback s = none := by
  have hfj : findIdxA (fun c => c = rbrace) s.data.reverse = none := by
    rw [findIdxA_eq_none_iff]
    intro c hc
    exact decide_eq_false (fun heq => h2 (heq ▸ List.mem_reverse.mp hc))
  cases hfi : findIdxA (fun c => c = lbrace) s.data with
  | none =>
    rw [findIdxA_eq_none_iff] at hfi
    have := hfi lbrace h1
    simp at this
  | some i =>
    have hFind : strFind s.data lbrace = (i : Int) := by
      unfold strFind; rw [hfi]
    have hRfind : strRfind s.data rbrace = -1 := by
      unfold strRfind; rw [hfj]
    unfold brace_fallback
    rw [hFind, hRfind, if_pos ⟨by omega, by omega⟩]
    unfold pySlice
    rw [show ((-1 : Int) + 1).toNat = 0 by omega, List.take_zero, List.drop_nil,
      json_loads_chars_nil]

theorem safe_json_parse_absent : safe_json_parse none = none := rfl

theorem safe_json_parse_empty : safe_json_parse (some "") = none := rfl

theorem safe_json_parse_direct {s : String} {v : Json} (h : json_loads s = some v) :
    safe_json_parse (some s) = some v := by
  have hne : s ≠ "" := by
    intro heq
    rw [heq, json_loads_empty] at h
    exact Option.noConfusion h
  simp only [safe_json_parse, if_neg hne, h]

theorem safe_json_parse_both_fail {s : String} (h0 : s ≠ "")
    (h1 : json_loads s = none) (h2 : brace_fallback s = none) :
    safe_json_parse (some s) = none := by
  simp only [safe_json_parse, if_neg h0, h1, h2]

/-! ### Lemmas about the Analysis Client -/

theorem analyze_client_none (llm : String → LLMOutcome) (r j : String) :
    analyze_with_gemini none llm r j = defaultResult "Gemini client not initialized." := rfl

theorem analyze_llm_err {llm : String → LLMOutcome} (r j e : String)
    (h : llm (build_prompt r j) = LLMOutcome.err e) :
    analyze_with_gemini (some ()) llm r j = defaultResult ("Analysis failed: " ++ e) := by
  simp only [analyze_with_gemini, h]

theorem analyze_parse_fail {llm : String → LLMOutcome} {txt : Option String} (r j : String)
    (h : llm (build_prompt r j) = LLMOutcome.ok txt) (hp : safe_json_parse txt = none) :
    analyze_with_gemini (some ()) llm r j
      = defaultResult ("Analysis failed: " ++ "Invalid JSON returned by Gemini") := by
  simp only [analyze_with_gemini, h, hp]

theorem analyze_parse_ok {llm : String → LLMOutcome} {txt : Option String} {v : Json}
    (r j : String) (h : llm (build_prompt r j) = LLMOutcome.ok txt)
    (hp : safe_json_parse txt = some v) :
    analyze_with_gemini (some ()) llm r j = v := by
  simp only [analyze_with_gemini, h, hp]

theorem hasAllFive_defaultResult (sugg : String) : hasAllFive (defaultResult sugg) = true := rfl

/-! ### Lemmas about DOCX extraction -/

theorem intercalate_go_eq (as : List String) :
    ∀ acc, String.intercalate.go acc "\n" as = joinLines (acc :: as) := by
  induction as with
  | nil => intro acc; rfl
  | cons a as ih =>
    intro acc
    show String.intercalate.go (acc ++ "\n" ++ a) "\n" as = joinLines (acc :: a :: as)
    rw [ih (acc ++ "\n" ++ a)]
    cases as with
    | nil => rfl
    | cons b bs =>
      show (acc ++ "\n" ++ a) ++ "\n" ++ joinLines (b :: bs)
          = acc ++ "\n" ++ (a ++ "\n" ++ joinLines (b :: bs))
      simp [String.append_assoc]

end ResumeAnalyzer


namespace ResumeAnalyzer

/-! ### The claims -/

/-- C1 counterexample: with the client configured and the LLM replying
`\x7b\x7d` — valid JSON carrying none of the expected fields — the record
returned on the success path does not contain the five fields. -/
theorem C1_counterexample :
    hasAllFive (analyze_with_gemini (some ())
      (fun _ => LLMOutcome.ok (some "\x7b\x7d")) "resume" "job") = false := rfl

/-- C1 (amended): the returned record carries all five fields on every
failure path — client unset, LLM error, or parse failure — while on the
success path the record is exactly the value parsed from the LLM reply, so
it contains the five fields only when that parsed reply does. -/
theorem C1_all_fields_on_failure_paths (r j e : String)
    (llm0 llm1 llm2 llm3 : String → LLMOutcome) (txt1 txt2 : Option String) (v : Json) :
    hasAllFive (analyze_with_gemini none llm0 r j) = true
    ∧ (llm1 (build_prompt r j) = LLMOutcome.err e →
        hasAllFive (analyze_with_gemini (some ()) llm1 r j) = true)
    ∧ (llm2 (build_prompt r j) = LLMOutcome.ok txt1 → safe_json_parse txt1 = none →
        hasAllFive (analyze_with_gemini (some ()) llm2 r j) = true)
    ∧ (llm3 (build_prompt r j) = LLMOutcome.ok txt2 → safe_json_parse txt2 = some v →
        analyze_with_gemini (some ()) llm3 r j = v) := by
  refine ⟨rfl, ?_, ?_, ?_⟩
  · intro h
    rw [analyze_llm_err r j e h]
    exact hasAllFive_defaultResult _
  · intro h hp
    rw [analyze_parse_fail r j h hp]
    exact hasAllFive_defaultResult _
  · intro h hp
    exact analyze_parse_ok r j h hp

theorem C1_all_fields_on_failure_paths_witness :
    hasAllFive (analyze_with_gemini none (fun _ => LLMOutcome.err "boom") "r" "j") = true
    ∧ hasAllFive (analyze_with_gemini (some ()) (fun _ => LLMOutcome.err "boom") "r" "j") = true
    ∧ hasAllFive (analyze_with_gemini (some ()) (fun _ => LLMOutcome.ok none) "r" "j") = true
    ∧ analyze_with_gemini (some ()) (fun _ => LLMOutcome.ok (some "\x7b\x7d")) "r" "j"
        = Json.obj [] := by
  obtain ⟨a, b, c, d⟩ := C1_all_fields_on_failure_paths "r" "j" "boom"
    (fun _ => LLMOutcome.err "boom") (fun _ => LLMOutcome.err "boom")
    (fun _ => LLMOutcome.ok none) (fun _ => LLMOutcome.ok (some "\x7b\x7d"))
    none (some "\x7b\x7d") (Json.obj [])
  exact ⟨a, b rfl, c rfl rfl, d rfl rfl⟩

/-- C2: when the LLM call raises any error, or the reply fails to parse by
both strategies, `analyze_with_gemini` returns (never raises) the default
record — score 0, all lists empty — whose `suggestions` is "Analysis
failed: " followed by the error description. -/
theorem C2_failure_default (r j e : String) (llm1 llm2 : String → LLMOutcome)
    (txt : Option String) :
    (llm1 (build_prompt r j) = LLMOutcome.err e →
      analyze_with_gemini (some ()) llm1 r j = defaultResult ("Analysis failed: " ++ e))
    ∧ (llm2 (build_prompt r j) = LLMOutcome.ok txt → safe_json_parse txt = none →
      analyze_with_gemini (some ()) llm2 r j
        = defaultResult ("Analysis failed: " ++ "Invalid JSON returned by Gemini")) :=
  ⟨fun h => analyze_llm_err r j e h, fun h hp => analyze_parse_fail r j h hp⟩

theorem C2_failure_default_witness :
    analyze_with_gemini (some ()) (fun _ => LLMOutcome.err "connection reset") "r" "j"
      = defaultResult ("Analysis failed: " ++ "connection reset")
    ∧ analyze_with_gemini (some ()) (fun _ => LLMOutcome.ok (some "not json at all")) "r" "j"
      = defaultResult ("Analysis failed: " ++ "Invalid JSON returned by Gemini") := by
  obtain ⟨a, b⟩ := C2_failure_default "r" "j" "connection reset"
    (fun _ => LLMOutcome.err "connection reset")
    (fun _ => LLMOutcome.ok (some "not json at all")) (some "not json at all")
  exact ⟨a rfl, b rfl rfl⟩

/-- C3: with the client handle unset, `analyze_with_gemini` returns the
exact "not initialized" record, for every pair of inputs and every LLM
environment (the outcome does not depend on the LLM, modelling that no
call is made). -/
theorem C3_client_uninitialized (r j : String) (llm : String → LLMOutcome) :
    analyze_with_gemini none llm r j
      = Json.obj [("match_score", Json.num 0),
          ("resume_skills", Json.arr []),
          ("job_required_skills", Json.arr []),
          ("missing_skills", Json.arr []),
          ("suggestions", Json.str "Gemini client not initialized.")] := rfl

/-- C4: `safe_json_parse` is total — it returns a parsed value or `none`,
never raising; absent input, the empty string, the literal
"not json at all", and any string on which both parse strategies fail all
yield `none`. -/
theorem C4_safe_json_parse_total (t : Option String) (s : String) :
    safe_json_parse none = none
    ∧ safe_json_parse (some "") = none
    ∧ safe_json_parse (some "not json at all") = none
    ∧ (safe_json_parse t = none ∨ ∃ v, safe_json_parse t = some v)
    ∧ (s ≠ "" → json_loads s = none → brace_fallback s = none →
        safe_json_parse (some s) = none) := by
  refine ⟨rfl, rfl, rfl, ?_, fun h0 h1 h2 => safe_json_parse_both_fail h0 h1 h2⟩
  cases safe_json_parse t with
  | none => exact Or.inl rfl
  | some v => exact Or.inr ⟨v, rfl⟩

theorem C4_safe_json_parse_total_witness :
    safe_json_parse (some "also not json") = none := by
  have h := C4_safe_json_parse_total none "also not json"
  exact h.2.2.2.2 (by decide) rfl rfl

/-- C5: when the whole-string parse fails but the string has both braces
and the substring from the first opening brace through the last closing
brace parses, `safe_json_parse` returns that parsed value. -/
theorem C5_brace_extraction (s : String) (sub : List Char) (v : Json)
    (hwhole : json_loads s = none)
    (hsub : specBraceSubstring s.data = some sub)
    (hparse : json_loads_chars sub = some v) :
    safe_json_parse (some s) = some v := by
  have hne : s ≠ "" := string_ne_empty_of_data_ne (specBraceSubstring_data_ne hsub)
  have hfb : brace_fallback s = some v := by
    rw [brace_fallback_eq_spec hsub, hparse]
  simp only [safe_json_parse, if_neg hne, hwhole, hfb]

set_option maxRecDepth 8000 in
theorem C5_brace_extraction_witness :
    safe_json_parse (some exampleReply) = some exampleObj :=
  C5_brace_extraction exampleReply exampleReplyCore.data exampleObj rfl rfl rfl

/-- C6: a string that is valid JSON in its entirety is returned by the
strict whole-string parse, without the fallback. -/
theorem C6_direct_parse (s : String) (v : Json) (h : json_loads s = some v) :
    safe_json_parse (some s) = some v :=
  safe_json_parse_direct h

set_option maxRecDepth 8000 in
theorem C6_direct_parse_witness :
    safe_json_parse (some exampleFullJson) = some exampleFullObj :=
  C6_direct_parse exampleFullJson exampleFullObj rfl

/-- C7: the Text Normalizer replaces each maximal whitespace run by one
space and trims — equivalently, it joins the whitespace-separated words of
its input with single spaces — and consequently every string of only
whitespace (or the empty string) normalizes to the empty string. -/
theorem C7_clean_text_normalizes (s w : String) :
    clean_text s = String.mk (joinWords (words s.data))
    ∧ ((∀ c ∈ w.data, isSpace c = true) → clean_text w = "") := by
  refine ⟨clean_text_eq_joinWords s, fun hall => ?_⟩
  rw [clean_text_eq_joinWords w, words_of_all_space hall]
  rfl

theorem C7_clean_text_normalizes_witness : clean_text "  \t\n " = "" := by
  have h := C7_clean_text_normalizes "x" "  \t\n "
  exact h.2 (by decide)

/-- C8: the Text Normalizer is idempotent. -/
theorem C8_clean_text_idempotent (s : String) :
    clean_text (clean_text s) = clean_text s := by
  rw [clean_text_eq_joinWords s,
    clean_text_eq_joinWords (String.mk (joinWords (words s.data))),
    show (String.mk (joinWords (words s.data))).data = joinWords (words s.data) from rfl,
    words_joinWords (words_good s.data)]

/-- C9: DOCX extraction returns the paragraph texts in document order,
joined with a single newline between consecutive paragraphs. -/
theorem C9_docx_newline_join (doc : DocxDocument) :
    extract_docx_text doc = joinLines (doc.paragraphs.map Paragraph.text) := by
  unfold extract_docx_text
  cases h : doc.paragraphs.map Paragraph.text with
  | nil => rfl
  | cons a as => exact intercalate_go_eq as a

/-- C10: the guard on the closing-brace index (`rfind + 1` compared with
`-1`) can never be false; for a string with an opening brace but no
closing brace (and not itself valid JSON) both strategies fail — the
fallback parses an empty slice — and `safe_json_parse` returns `none`
without raising. -/
theorem C10_open_brace_no_close (cs : List Char) (s : String)
    (h1 : lbrace ∈ s.data) (h2 : rbrace ∉ s.data) (h3 : json_loads s = none) :
    strRfind cs rbrace + 1 ≠ -1
    ∧ safe_json_parse (some s) = none := by
  constructor
  · cases hfj : findIdxA (fun d => d = rbrace) cs.reverse with
    | none =>
      have hR : strRfind cs rbrace = -1 := by
        unfold strRfind; rw [hfj]
      rw [hR]
      omega
    | some j =>
      have hR : strRfind cs rbrace = (cs.length : Int) - 1 - (j : Int) := by
        unfold strRfind; rw [hfj]
      have hj := findIdxA_lt_length hfj
      rw [hR]
      simp only [List.length_reverse] at hj
      omega
  · have hne : s ≠ "" := string_ne_empty_of_data_ne (List.ne_nil_of_mem h1)
    exact safe_json_parse_both_fail hne h3 (brace_fallback_no_close h1 h2)

theorem C10_open_brace_no_close_witness :
    strRfind [] rbrace + 1 ≠ -1 ∧ safe_json_parse (some "\x7babc") = none :=
  C10_open_brace_no_close [] "\x7babc" (by decide) (by decide) rfl

end ResumeAnalyzer
